import Mathlib

/-!
Verification development for the bvh-tools library: a shallow embedding of
the skeleton-tree data model, the channel-order reconciler
(`populate_channel_order_and_offsets` / `load_all` in `bvh/helpers.py`),
the skeleton-metrics pass (`process_skeleton`), the numpy frame decomposer
(`NumpyBvhReader.on_frame`), the numpy bone renderer (`get_bones` in
`bvh/numpy_renderer.py`) and the joint-position renderers
(`joint_positions`, `joint_positions_batch` in `bvh/theano_renderer.py`),
together with theorems settling the specified properties.

Numeric scalars are embedded generically over a field `α` (the Python code
computes with floats); trigonometric and square-root primitives are passed
explicitly so that the development can be instantiated both at `ℝ` (with
`Real.sin`, `Real.cos`, `Real.sqrt`) for numerical statements and at `ℚ`
for executable witnesses of structural statements.
-/

namespace Bvh

/-- Skeleton node, mirroring the parser's node objects consumed by the
library: `name`, the ordered `channels` label list, the fixed 3-vector
`offset`, the `is_end_site` flag, the metrics fields `length` and
`offset_unit` (written by `process_skeleton`), and the ordered `children`
list. -/
inductive Node (α : Type) : Type where
  | mk (name : String) (channels : List String) (offset : Fin 3 → α)
      (is_end_site : Bool) (length : α) (offset_unit : Fin 3 → α)
      (children : List (Node α)) : Node α

variable {α : Type}

def Node.name : Node α → String
  | .mk nm _ _ _ _ _ _ => nm

def Node.channels : Node α → List String
  | .mk _ chs _ _ _ _ _ => chs

def Node.offset : Node α → Fin 3 → α
  | .mk _ _ off _ _ _ _ => off

def Node.is_end_site : Node α → Bool
  | .mk _ _ _ es _ _ _ => es

def Node.length : Node α → α
  | .mk _ _ _ _ len _ _ => len

def Node.offset_unit : Node α → Fin 3 → α
  | .mk _ _ _ _ _ ou _ => ou

def Node.children : Node α → List (Node α)
  | .mk _ _ _ _ _ _ cs => cs

/-! ## Channel-order reconciler (`bvh/helpers.py`) -/

/-- Python's `str.lower()`: lowercase every character (implemented on the
character list so that it evaluates by kernel reduction). -/
def strToLower (s : String) : String := String.mk (s.data.map Char.toLower)

/-- The canonical joint-order tables in `helpers.py` are dicts built by
enumerating a literal list of `(joint, channel_order)` pairs; we model the
underlying literal list. In the source tables all keys are distinct, so
first-match lookup below coincides with Python dict lookup. -/
def standard_joint_order_list : List (String × String) :=
  [("hips", "xyz"), ("spine", "xyz"), ("head", "xyz"),
   ("leftshoulder", "xyz"), ("leftarm", "xyz"), ("leftforearm", "yzx"),
   ("lefthand", "xyz"), ("lefthandthumb1", "xzy"),
   ("rightshoulder", "xyz"), ("rightarm", "xyz"), ("rightforearm", "yzx"),
   ("righthand", "xyz"), ("righthandthumb1", "xzy"),
   ("leftupleg", "xyz"), ("leftleg", "xyz"), ("leftfoot", "xyz"),
   ("lefttoebase", "xyz"), ("rightupleg", "xyz"), ("rightleg", "xyz"),
   ("rightfoot", "xyz"), ("righttoebase", "xyz")]

def rom_joint_order_list : List (String × String) :=
  [("hips", "xyz"), ("spine", "xyz"), ("head", "xyz"),
   ("leftshoulder", "xyz"), ("leftarm", "xyz"), ("leftforearm", "zyx"),
   ("lefthand", "xyz"), ("lefthandthumb1", "xyz"),
   ("leftupleg", "xyz"), ("leftleg", "xyz"), ("leftfoot", "xyz"),
   ("lefttoebase", "xyz"), ("rightshoulder", "xyz"), ("rightarm", "xyz"),
   ("rightforearm", "zyx"), ("righthand", "xyz"),
   ("righthandthumb1", "xyz"), ("rightupleg", "xyz"), ("rightleg", "xyz"),
   ("rightfoot", "xyz"), ("righttoebase", "xyz")]

/-- Lookup in an enumerated joint-order table: maps a joint name to its
slot index (position in the list) and expected channel-order string, as
the Python dict comprehension `{joint: (i, order) for i, (joint, order) in
enumerate(...)}` does for duplicate-free key lists. -/
def dictOfAux : List (String × String) → String → ℕ → Option (ℕ × String)
  | [], _, _ => none
  | (k, v) :: rest, nm, i =>
      if k = nm then some (i, v) else dictOfAux rest nm (i + 1)

def dictOf (l : List (String × String)) (nm : String) : Option (ℕ × String) :=
  dictOfAux l nm 0

def standard_joint_order : String → Option (ℕ × String) :=
  dictOf standard_joint_order_list

def rom_joint_order : String → Option (ℕ × String) :=
  dictOf rom_joint_order_list

deriving instance DecidableEq for Except

/-- The two mutable caller-supplied buffers plus the shared one-element
index list `index=[0]` threaded through `populate_channel_order_and_offsets`. -/
structure PopState (α : Type) where
  channel_order : List ℕ
  offsets : List α
  index : ℕ
  deriving DecidableEq

/-- Errors escaping `populate_channel_order_and_offsets`: a Python
`KeyError` from `joint_order[node.name.lower()]` when a joint name has no
canonical entry, or the `AssertionError` raised by the channel-order
assertion (carrying expected string, file string and node name, as in the
assertion message). -/
inductive PopErr : Type where
  | keyError (name : String) : PopErr
  | assertError (expected found nodeName : String) : PopErr
  deriving DecidableEq

/-- The rotation-order string extracted from a channel list: for every
channel `ch` with `ch[1:].lower() == 'rotation'`, append `ch[0].lower()`. -/
def fileOrderString (chs : List String) : String :=
  chs.foldl
    (fun acc ch =>
      if strToLower (ch.drop 1) = "rotation" then acc ++ strToLower (ch.take 1)
      else acc) ""

/-- The three `channel_order` writes and `offsets` slice assignment plus
index advance performed for one reconciled joint with slot `ji`. -/
def writeJoint (s : PopState α) (ji : ℕ) (off : Fin 3 → α) : PopState α :=
  { channel_order :=
      ((s.channel_order.set (ji * 3) s.index).set (ji * 3 + 1)
        (s.index + 1)).set (ji * 3 + 2) (s.index + 2),
    offsets :=
      ((s.offsets.set (ji * 3) (off 0)).set (ji * 3 + 1)
        (off 1)).set (ji * 3 + 2) (off 2),
    index := s.index + 3 }

mutual

/-- Embedding of `populate_channel_order_and_offsets(node, channel_order,
offsets, index, joint_order)`: skip end sites entirely; otherwise extract
the file order string, look the lowercased name up in `joint_order`
(KeyError on a miss), assert it equals the expected string, write the
running channel indices and the node offset into the canonical slots and
recurse into the children. -/
def populate_channel_order_and_offsets (jo : String → Option (ℕ × String)) :
    Node α → PopState α → Except PopErr (PopState α)
  | Node.mk nm chs off es _ _ cs, s =>
    if es then Except.ok s
    else
      match jo (strToLower nm) with
      | none => Except.error (PopErr.keyError (strToLower nm))
      | some (ji, std) =>
          if fileOrderString chs = std then
            populate_children jo cs (writeJoint s ji off)
          else
            Except.error (PopErr.assertError std (fileOrderString chs) nm)

/-- The `for child in node.children` recursion of
`populate_channel_order_and_offsets`. -/
def populate_children (jo : String → Option (ℕ × String)) :
    List (Node α) → PopState α → Except PopErr (PopState α)
  | [], s => Except.ok s
  | c :: cs, s =>
    match populate_channel_order_and_offsets jo c s with
    | Except.ok s2 => populate_children jo cs s2
    | Except.error e => Except.error e

end

mutual

/-- The sequence of non-end-site nodes visited (in pre-order) by
`populate_channel_order_and_offsets`; end-site nodes and their subtrees
are not visited. -/
def visitSeq : Node α → List (Node α)
  | Node.mk nm chs off es len ou cs =>
    if es then [] else Node.mk nm chs off es len ou cs :: visitForest cs

def visitForest : List (Node α) → List (Node α)
  | [] => []
  | c :: cs => visitSeq c ++ visitForest cs

end

/-- A per-frame angle row reindexed by the computed `channel_order`
(numpy fancy indexing `reader.angles_rad[:, channel_order]`, one row). -/
def reindexRow [Zero α] (channel_order : List ℕ) (row : List α) : List α :=
  channel_order.map (fun j => row.getD j 0)

/-- The fresh buffers and index cell allocated per file by `load_all`:
`offsets = [0] * len(joint_order) * 3`, `channel_order = [0] *
len(joint_order) * 3`, `index = [0]`. -/
def initState [Zero α] (jol : List (String × String)) : PopState α :=
  ⟨List.replicate (jol.length * 3) 0, List.replicate (jol.length * 3) 0, 0⟩

/-- Embedding of `load_all(base_dir, joint_order)` in `bvh/helpers.py`.
The directory walk and the `NumpyBvhReader` parsing are external
collaborators; a directory is modelled as the list, in walk order, of the
parsed `.bvh` files, each given by its root node and its
angles-in-radians frame rows.  For each file: fresh `channel_order` and
`offsets` buffers of length `len(joint_order) * 3` and a fresh `index`
cell are allocated, `populate_channel_order_and_offsets` is run on the
root, and on success the offsets row and the reindexed angle rows are
appended.  The `try`/`except AssertionError` catches only the assertion
failure (channel-order mismatch) and skips the file; any other error — in
particular the `KeyError` raised when a joint name has no canonical
entry — propagates out of the loop.  The returned pair stacks all angle
rows (`np.vstack`) and collects the offsets rows (`np.array`). -/
def load_all [Zero α] (jol : List (String × String)) :
    List (Node α × List (List α)) → Except PopErr (List (List α) × List (List α))
  | [] => Except.ok ([], [])
  | (root, angles_rad) :: rest =>
    match populate_channel_order_and_offsets (dictOf jol) root (initState jol) with
    | Except.ok s =>
        match load_all jol rest with
        | Except.ok (angles, offsets) =>
            Except.ok (angles_rad.map (reindexRow s.channel_order) ++ angles,
              s.offsets :: offsets)
        | Except.error e => Except.error e
    | Except.error (PopErr.assertError _ _ _) => load_all jol rest
    | Except.error (PopErr.keyError k) => Except.error (PopErr.keyError k)

/-! ## Skeleton metrics (`process_skeleton` in `bvh/helpers.py`) -/

mutual

/-- Structural size of a tree counting nodes only (insensitive to node
names; used as a termination measure for passes that rename nodes). -/
def nsize : Node α → ℕ
  | Node.mk _ _ _ _ _ _ cs => 1 + nsizeForest cs

def nsizeForest : List (Node α) → ℕ
  | [] => 0
  | c :: cs => nsize c + nsizeForest cs

end

def Node.withName : Node α → String → Node α
  | Node.mk _ chs off es len ou cs, nm => Node.mk nm chs off es len ou cs

/-- The end-site rename performed on each child before recursing:
`if child.is_end_site and child.name == 'End Site': child.name =
node.name + 'EndSite'`. -/
def renameEndSite (parentName : String) (c : Node α) : Node α :=
  if c.is_end_site = true ∧ c.name = "End Site" then
    c.withName (parentName ++ "EndSite")
  else c

/-- The dot product `offset.dot(offset)` of the 3-vector offset with
itself. -/
def dot3 [Field α] (v : Fin 3 → α) : α := v 0 * v 0 + v 1 * v 1 + v 2 * v 2

mutual

/-- Embedding of `process_skeleton(node)`: set `node.length =
offset.dot(offset) ** 0.5` (the square root `** 0.5` is the supplied
primitive `sq`), set `node.offset_unit = offset / node.length if
node.length != 0. else offset`, rename generic end-site children and
recurse into the (renamed) children. -/
def process_skeleton [Field α] [DecidableEq α] (sq : α → α) : Node α → Node α
  | Node.mk nm chs off es _ _ cs =>
    let len := sq (dot3 off)
    Node.mk nm chs off es len
      (if len ≠ 0 then (fun j => off j / len) else off)
      (process_children sq nm cs)
termination_by n => 2 * nsize n
decreasing_by
  simp only [nsize]
  omega

/-- The `for child in node.children` loop of `process_skeleton`: rename a
generic end-site child, then recurse. -/
def process_children [Field α] [DecidableEq α] (sq : α → α)
    (parentName : String) : List (Node α) → List (Node α)
  | [] => []
  | c :: cs =>
      process_skeleton sq (renameEndSite parentName c) ::
        process_children sq parentName cs
termination_by l => 2 * nsizeForest l + 1
decreasing_by
  all_goals simp only [nsizeForest]
  case _ =>
    have hc : nsize (renameEndSite parentName c) = nsize c := by
      cases c with
      | mk nm2 chs2 off2 es2 len2 ou2 cs2 =>
        simp only [renameEndSite, Node.withName]
        split
        case _ => simp only [nsize]
        case _ => rfl
    rw [hc]
    omega
  case _ =>
    have hc : 1 ≤ nsize c := by
      cases c with
      | mk nm2 chs2 off2 es2 len2 ou2 cs2 => simp only [nsize]; omega
    omega

end

/-! ## Frame decomposer (`NumpyBvhReader.on_frame` in `bvh/numpy_reader.py`) -/

/-- The angles-in-degrees row stored by `on_frame`: the raw frame values
selected at the angle-channel indices `self._ang_idx`. -/
def on_frame_angles_deg (ang_idx : List ℕ) (values : List ℝ) : List ℝ :=
  ang_idx.map (fun j => values.getD j 0)

/-- The angles-in-radians row stored by `on_frame`:
`self.angles_deg[frame] * np.pi / 180.` elementwise. -/
noncomputable def on_frame_angles_rad (ang_idx : List ℕ) (values : List ℝ) : List ℝ :=
  (on_frame_angles_deg ang_idx values).map (fun d => d * Real.pi / 180)

/-! ## Rotation matrices and homogeneous transforms

Shared by `bvh/numpy_renderer.py` and `bvh/theano_renderer.py` (both
define the same `rot_x`, `rot_y`, `rot_z` and `rotation_map`). The
trigonometric primitives are supplied through a `Trig` record so the
development can be instantiated at `ℝ` with `Real.sin` / `Real.cos`. -/

abbrev Mat3 (α : Type) := Matrix (Fin 3) (Fin 3) α

abbrev Mat4 (α : Type) := Matrix (Fin 4) (Fin 4) α

abbrev Vec4 (α : Type) := Fin 4 → α

structure Trig (α : Type) where
  sinf : α → α
  cosf : α → α

noncomputable def realTrig : Trig ℝ := ⟨Real.sin, Real.cos⟩

def rot_x [Field α] (tr : Trig α) (ang : α) : Mat3 α :=
  !![1, 0, 0;
     0, tr.cosf ang, -(tr.sinf ang);
     0, tr.sinf ang, tr.cosf ang]

def rot_y [Field α] (tr : Trig α) (ang : α) : Mat3 α :=
  !![tr.cosf ang, 0, tr.sinf ang;
     0, 1, 0;
     -(tr.sinf ang), 0, tr.cosf ang]

def rot_z [Field α] (tr : Trig α) (ang : α) : Mat3 α :=
  !![tr.cosf ang, -(tr.sinf ang), 0;
     tr.sinf ang, tr.cosf ang, 0;
     0, 0, 1]

/-- The string-keyed `rotation_map = {'Xrotation': rot_x, 'Yrotation':
rot_y, 'Zrotation': rot_z}`; `none` models `ch in rotation_map` being
false. -/
def rotation_map [Field α] (tr : Trig α) (ch : String) :
    Option (α → Mat3 α) :=
  if ch = "Xrotation" then some (rot_x tr)
  else if ch = "Yrotation" then some (rot_y tr)
  else if ch = "Zrotation" then some (rot_z tr)
  else none

/-- Membership of a channel label in `rotation_map`, as a Boolean. -/
def isRotChannel (ch : String) : Bool :=
  ch == "Xrotation" || ch == "Yrotation" || ch == "Zrotation"

/-- The local homogeneous transform built from a rotation block and a
translation column: `local_trans = np.zeros((4, 4)); local_trans[:3, :3]
= rot; local_trans[:, 3] = node.offset + (1,)` — upper-left 3×3 is the
rotation, column 3 is the offset with homogeneous 1, bottom row is
`[0, 0, 0, 1]`. -/
def mkLocal [Field α] (rot : Mat3 α) (off : Fin 3 → α) : Mat4 α :=
  !![rot 0 0, rot 0 1, rot 0 2, off 0;
     rot 1 0, rot 1 1, rot 1 2, off 1;
     rot 2 0, rot 2 1, rot 2 2, off 2;
     0, 0, 0, 1]

/-! ## Numpy bone renderer (`get_bones` in `bvh/numpy_renderer.py`) -/

/-- The rotation-composition loop of the numpy `get_bones`:
`for ch in node.channels: if ch in rotation_map: rot =
rot.dot(rotation_map[ch](angles_rad.pop(0)))`.  The Python `pop(0)`
destructively removes the first element of the caller's list, so the
remaining list is threaded through and returned; `pop(0)` on an
exhausted list raises `IndexError`, modelled as `none`. -/
def popRotLoop [Field α] (tr : Trig α) :
    List String → Mat3 α → List α → Option (Mat3 α × List α)
  | [], rot, angs => some (rot, angs)
  | ch :: chs, rot, angs =>
    match rotation_map tr ch with
    | none => popRotLoop tr chs rot angs
    | some f =>
      match angs with
      | [] => none
      | a :: rest => popRotLoop tr chs (rot * f a) rest

/-- A child offset as a homogeneous 4-vector, `np.r_[child.offset, 1.]`. -/
def homog [Field α] (v : Fin 3 → α) : Vec4 α := ![v 0, v 1, v 2, 1]

/-- Perspective division `point[:3] / point[3]` of a homogeneous point. -/
def projPt [Field α] (p : Vec4 α) : α × α × α :=
  (p 0 / p 3, p 1 / p 3, p 2 / p 3)

mutual

/-- Embedding of the numpy `get_bones(node, angles_rad, parent_trans)`:
compose the local rotation consuming angles by `pop(0)` (the consumed
list state is threaded and returned), build the local homogeneous
transform, compose with the parent transform, and for every child emit
the segment (own origin, child origin under the current transform)
followed by the child's own bones.  The default `parent_trans` is
`np.eye(4)`, i.e. `1`. -/
def get_bones [Field α] (tr : Trig α) : Node α → List α → Mat4 α →
    Option (List ((α × α × α) × (α × α × α)) × List α)
  | Node.mk _ chs off _ _ _ cs, angles_rad, parent_trans =>
    match popRotLoop tr chs 1 angles_rad with
    | none => none
    | some (rot, angs1) =>
      let node_trans := parent_trans * mkLocal rot off
      let point_1 := node_trans.mulVec ![0, 0, 0, 1]
      get_bones_children tr cs angs1 node_trans point_1

/-- The `for child in node.children` loop of the numpy `get_bones`:
append the bone `(point_1[:3]/point_1[3], point_2[:3]/point_2[3])` with
`point_2 = node_trans.dot(np.r_[child.offset, 1.])`, then the child's
recursive bones. -/
def get_bones_children [Field α] (tr : Trig α) :
    List (Node α) → List α → Mat4 α → Vec4 α →
    Option (List ((α × α × α) × (α × α × α)) × List α)
  | [], angs, _, _ => some ([], angs)
  | c :: cs, angs, node_trans, point_1 =>
    let point_2 := node_trans.mulVec (homog c.offset)
    match get_bones tr c angs node_trans with
    | none => none
    | some (bs, angs2) =>
      match get_bones_children tr cs angs2 node_trans point_1 with
      | none => none
      | some (bs2, angs3) =>
          some ((projPt point_1, projPt point_2) :: bs ++ bs2, angs3)

end

mutual

/-- Number of rotation channels consumed in a full `get_bones` traversal
of a tree (every node's rotation channels plus those of its whole
subtree). -/
def rotCount : Node α → ℕ
  | Node.mk _ chs _ _ _ _ cs => chs.countP isRotChannel + rotCountForest cs

def rotCountForest : List (Node α) → ℕ
  | [] => 0
  | c :: cs => rotCount c + rotCountForest cs

end

/-! ## Theano joint-position renderers (`bvh/theano_renderer.py`)

The theano functions build symbolic tensors; the embedding treats a
rank-1 angle (or length) tensor as a function `ℕ → α` (indexing a
symbolic vector) and a rank-2 tensor as a list of such rows (the leading
batch dimension made explicit). -/

/-- The fixed-angle override key
`ch_key = node.name.lower() + '_' + ch[0].lower()`. -/
def chKey (nodeName ch : String) : String :=
  strToLower nodeName ++ "_" ++ strToLower (ch.take 1)

/-- The node-offset selection of `joint_positions`: the raw file offset
when `lengths is None or node.length == 0.`, otherwise the rescaled
offset `node.offset_unit * lengths[lengths_map[node.name.lower()]]`. -/
def node_offset_sel [Field α] [DecidableEq α] (lengths : Option (ℕ → α))
    (lengths_map : String → ℕ) (nm : String) (off ou : Fin 3 → α)
    (len : α) : Fin 3 → α :=
  match lengths with
  | none => off
  | some lf =>
      if len = 0 then off
      else fun j => ou j * lf (lengths_map (strToLower nm))

/-- The rotation-composition loop of `joint_positions`: for each channel
in `rotation_map`, use the fixed angle under `ch_key` when
`fixed_angles` is given and has the key, otherwise consume
`angles[i[0]]` and advance the shared cursor. -/
def idxRotLoop [Field α] (tr : Trig α) (fixed : Option (List (String × α)))
    (nodeName : String) (angles : ℕ → α) :
    List String → Mat3 α → ℕ → Mat3 α × ℕ
  | [], rot, i => (rot, i)
  | ch :: chs, rot, i =>
    match rotation_map tr ch with
    | none => idxRotLoop tr fixed nodeName angles chs rot i
    | some f =>
      match fixed with
      | some fa =>
        match fa.lookup (chKey nodeName ch) with
        | some v => idxRotLoop tr fixed nodeName angles chs (rot * f v) i
        | none => idxRotLoop tr fixed nodeName angles chs (rot * f (angles i)) (i + 1)
      | none => idxRotLoop tr fixed nodeName angles chs (rot * f (angles i)) (i + 1)

mutual

/-- Embedding of `joint_positions(node, angles, fixed_angles, lengths,
lengths_map, skip, i, parent_trans)`: build the local rotation (with
optional fixed-angle overrides), and unless the node is both skipped and
an end site, pick the node offset (`node.offset`, or `node.offset_unit *
lengths[lengths_map[name]]` when `lengths` is given and `node.length !=
0.`), compose the transform, emit the node's own position `node_trans[:,
3]` unless the node is skipped, and recurse into the children with the
composed transform.  The shared cursor `i = [0]` is threaded and
returned. -/
def joint_positions [Field α] [DecidableEq α] (tr : Trig α)
    (fixed : Option (List (String × α))) (lengths : Option (ℕ → α))
    (lengths_map : String → ℕ) (skip : List String) :
    Node α → (ℕ → α) → ℕ → Mat4 α → List (Vec4 α) × ℕ
  | Node.mk nm chs off es len ou _cs, angles, i, parent_trans =>
    let ri := idxRotLoop tr fixed nm angles chs 1 i
    if strToLower nm ∈ skip ∧ es = true then ([], ri.2)
    else
      let node_offset := node_offset_sel lengths lengths_map nm off ou len
      let node_trans := parent_trans * mkLocal ri.1 node_offset
      let own : List (Vec4 α) :=
        if strToLower nm ∈ skip then [] else [fun r => node_trans r 3]
      let rest := joint_positions_children tr fixed lengths lengths_map skip
        _cs angles ri.2 node_trans
      (own ++ rest.1, rest.2)

/-- The `for child in node.children` loop of `joint_positions`. -/
def joint_positions_children [Field α] [DecidableEq α] (tr : Trig α)
    (fixed : Option (List (String × α))) (lengths : Option (ℕ → α))
    (lengths_map : String → ℕ) (skip : List String) :
    List (Node α) → (ℕ → α) → ℕ → Mat4 α → List (Vec4 α) × ℕ
  | [], _, i, _ => ([], i)
  | c :: cs, angles, i, node_trans =>
    let r1 := joint_positions tr fixed lengths lengths_map skip c angles i
      node_trans
    let r2 := joint_positions_children tr fixed lengths lengths_map skip cs
      angles r1.2 node_trans
    (r1.1 ++ r2.1, r2.2)

end

/-- Top-level `joint_positions` call with the Python defaults `i=[0]`
and `parent_trans = tt.eye(4)`. -/
def joint_positions_top [Field α] [DecidableEq α] (tr : Trig α)
    (fixed : Option (List (String × α))) (lengths : Option (ℕ → α))
    (lengths_map : String → ℕ) (skip : List String) (n : Node α)
    (angles : ℕ → α) : List (Vec4 α) × ℕ :=
  joint_positions tr fixed lengths lengths_map skip n angles 0 1

/-- Angle input of `joint_positions_batch`: a rank-1 symbolic vector or
a rank-2 batch (list of rows). -/
inductive TAngles (α : Type) : Type where
  | vec (a : ℕ → α) : TAngles α
  | mat (rows : List (ℕ → α)) : TAngles α

/-- Lengths input of `joint_positions_batch`, likewise rank-1 or
rank-2. -/
inductive TLengths (α : Type) : Type where
  | vec (l : ℕ → α) : TLengths α
  | mat (rows : List (ℕ → α)) : TLengths α

/-- The batched rotation-composition loop of `joint_positions_batch`:
with a fixed angle the unbatched `rotation_map[ch]` matrix multiplies
every batch element (`rot.dot(...)` broadcasting); otherwise
`tt.batched_dot(rot, rotation_map_batch[ch](angles[:, i[0]]))` — the
batched rotation builders `rot_x_batch` etc. produce, elementwise over
the batch column, exactly the matrices of `rot_x` etc. -/
def idxRotLoopBatch [Field α] (tr : Trig α)
    (fixed : Option (List (String × α))) (nodeName : String)
    (rows : List (ℕ → α)) :
    List String → List (Mat3 α) → ℕ → List (Mat3 α) × ℕ
  | [], rot, i => (rot, i)
  | ch :: chs, rot, i =>
    match rotation_map tr ch with
    | none => idxRotLoopBatch tr fixed nodeName rows chs rot i
    | some f =>
      match fixed with
      | some fa =>
        match fa.lookup (chKey nodeName ch) with
        | some v =>
            idxRotLoopBatch tr fixed nodeName rows chs
              (rot.map (fun r => r * f v)) i
        | none =>
            idxRotLoopBatch tr fixed nodeName rows chs
              (List.zipWith (fun r row => r * f (row i)) rot rows) (i + 1)
      | none =>
          idxRotLoopBatch tr fixed nodeName rows chs
            (List.zipWith (fun r row => r * f (row i)) rot rows) (i + 1)

mutual

/-- The recursion of `joint_positions_batch` on rank-2 (already
normalized) inputs: identical structure to `joint_positions` with an
explicit leading batch dimension on every transform and angle/length
input (`n_batch = angles.shape[0]` recomputed at each call; the
recursive calls re-enter through the rank check with rank-2 inputs,
which is the identity). -/
def joint_positions_batch_core [Field α] [DecidableEq α] (tr : Trig α)
    (fixed : Option (List (String × α))) (lengthsB : Option (List (ℕ → α)))
    (lengths_map : String → ℕ) (skip : List String) :
    Node α → List (ℕ → α) → ℕ → List (Mat4 α) → List (List (Vec4 α)) × ℕ
  | Node.mk nm chs off es len ou _cs, rows, i, parent_trans =>
    let n_batch := rows.length
    let ri := idxRotLoopBatch tr fixed nm rows chs
      (List.replicate n_batch 1) i
    if strToLower nm ∈ skip ∧ es = true then ([], ri.2)
    else
      let node_offset : List (Fin 3 → α) :=
        match lengthsB with
        | none => List.replicate n_batch off
        | some lrows =>
            if len = 0 then List.replicate n_batch off
            else lrows.map
              (fun lr => fun j => ou j * lr (lengths_map (strToLower nm)))
      let node_trans := List.zipWith (· * ·) parent_trans
        (List.zipWith mkLocal ri.1 node_offset)
      let own : List (List (Vec4 α)) :=
        if strToLower nm ∈ skip then []
        else [node_trans.map (fun m => fun r => m r 3)]
      let rest := joint_positions_batch_children tr fixed lengthsB
        lengths_map skip _cs rows ri.2 node_trans
      (own ++ rest.1, rest.2)

/-- The `for child in node.children` loop of `joint_positions_batch`. -/
def joint_positions_batch_children [Field α] [DecidableEq α] (tr : Trig α)
    (fixed : Option (List (String × α))) (lengthsB : Option (List (ℕ → α)))
    (lengths_map : String → ℕ) (skip : List String) :
    List (Node α) → List (ℕ → α) → ℕ → List (Mat4 α) →
    List (List (Vec4 α)) × ℕ
  | [], _, i, _ => ([], i)
  | c :: cs, rows, i, node_trans =>
    let r1 := joint_positions_batch_core tr fixed lengthsB lengths_map skip c
      rows i node_trans
    let r2 := joint_positions_batch_children tr fixed lengthsB lengths_map
      skip cs rows r1.2 node_trans
    (r1.1 ++ r2.1, r2.2)

end

/-- Top-level `joint_positions_batch` with the entry rank check: rank-2
angles are used as given (a rank-1 `lengths` next to rank-2 angles is
not normalized by the source and fails when later indexed as
`lengths[:, idx]`, modelled as an error); rank-1 angles are normalized
to a batch of size one by `angles[None, :]`, and rank-1 lengths likewise
by `lengths[None, :]`; defaults `i=[0]` and `parent_trans =
tt.repeat(tt.eye(4)[None, :, :], n_batch, 0)` are applied. -/
def joint_positions_batch [Field α] [DecidableEq α] (tr : Trig α)
    (fixed : Option (List (String × α))) (lengths : Option (TLengths α))
    (lengths_map : String → ℕ) (skip : List String) (n : Node α)
    (angles : TAngles α) :
    Except String (List (List (Vec4 α)) × ℕ) :=
  match angles with
  | TAngles.mat rows =>
    match lengths with
    | some (TLengths.vec _) =>
        Except.error "cannot index a rank-1 lengths tensor with a batch dimension"
    | some (TLengths.mat lrows) =>
        Except.ok (joint_positions_batch_core tr fixed (some lrows)
          lengths_map skip n rows 0 (List.replicate rows.length 1))
    | none =>
        Except.ok (joint_positions_batch_core tr fixed none
          lengths_map skip n rows 0 (List.replicate rows.length 1))
  | TAngles.vec a =>
    let lengthsB : Option (List (ℕ → α)) :=
      match lengths with
      | none => none
      | some (TLengths.vec l) => some [l]
      | some (TLengths.mat lrows) => some lrows
    Except.ok (joint_positions_batch_core tr fixed lengthsB lengths_map skip
      n [a] 0 [1])

/-! ## Proof-support definitions -/

/-- The reconciliation step of `populate_channel_order_and_offsets`
replayed over an explicit flat list of visited nodes. -/
def popVisit (jo : String → Option (ℕ × String)) :
    List (Node α) → PopState α → Except PopErr (PopState α)
  | [], s => Except.ok s
  | m :: rest, s =>
    match jo (strToLower m.name) with
    | none => Except.error (PopErr.keyError (strToLower m.name))
    | some (ji, std) =>
        if fileOrderString m.channels = std then
          popVisit jo rest (writeJoint s ji m.offset)
        else
          Except.error (PopErr.assertError std (fileOrderString m.channels)
            m.name)

/-- The canonical slot index of a node under a joint order (0 when the
name is absent). -/
def slotOf (jo : String → Option (ℕ × String)) (m : Node α) : ℕ :=
  match jo (strToLower m.name) with
  | some (ji, _) => ji
  | none => 0

/-- A node reconciles against a joint order: its lowercase name has an
entry and the file channel-order string equals the expected one. -/
def reconciles (jo : String → Option (ℕ × String)) (m : Node α) : Bool :=
  match jo (strToLower m.name) with
  | none => false
  | some (_, std) => fileOrderString m.channels == std

/-- The three `channel_order` writes for one joint at slot `j` with
running index `idx`. -/
def writeRun (co : List ℕ) (j idx : ℕ) : List ℕ :=
  ((co.set (j * 3) idx).set (j * 3 + 1) (idx + 1)).set (j * 3 + 2) (idx + 2)

/-- The final `channel_order` buffer after reconciling joints with slot
list `slots`, starting from buffer `co` and running index `idx`. -/
def coAfter : List ℕ → List ℕ → ℕ → List ℕ
  | [], co, _ => co
  | j :: rest, co, idx => coAfter rest (writeRun co j idx) (idx + 3)

mutual

/-- All nodes of a tree satisfy a predicate. -/
def NodeAll (P : Node α → Prop) : Node α → Prop
  | Node.mk nm chs off es len ou cs =>
    P (Node.mk nm chs off es len ou cs) ∧ ForestAll P cs

def ForestAll (P : Node α → Prop) : List (Node α) → Prop
  | [] => True
  | c :: cs => NodeAll P c ∧ ForestAll P cs

end


/-! ## Concrete instances used by witnesses and counterexamples -/

def c3Table : List (String × String) := [("a", "xyz"), ("b", "yzx")]

/-- The identity-trig instantiation used for rational witnesses. -/
def qTrig : Trig ℚ := ⟨id, id⟩

def c1BadFile : Node ℚ :=
  Node.mk "zzz" ["Xrotation", "Yrotation", "Zrotation"] ![0, 0, 0] false 0
    ![0, 0, 0] []
def c1GoodFile : Node ℚ :=
  Node.mk "Hips" ["Xposition", "Yposition", "Zposition", "Xrotation",
    "Yrotation", "Zrotation"] ![0, 0, 0] false 0 ![0, 0, 0] []

def c3Tree : Node ℚ :=
  Node.mk "A" ["Xrotation", "Yrotation", "Zrotation"] ![0, 0, 0] false 0
    ![0, 0, 0]
    [Node.mk "B" ["Yrotation", "Zrotation", "Xrotation"] ![1, 2, 3] false 0
      ![0, 0, 0] []]
def c6Child : Node ℚ :=
  Node.mk "B" ["Zrotation", "Yrotation", "Xrotation"] ![0, 0, 0] false 0
    ![0, 0, 0] []
def c6Tree : Node ℚ :=
  Node.mk "A" ["Xrotation", "Yrotation", "Zrotation"] ![0, 0, 0] false 0
    ![0, 0, 0] [c6Child]
/-- The Euclidean norm of a 3-vector, via the `EuclideanSpace` norm. -/
noncomputable def euclideanNorm3 (v : Fin 3 → ℝ) : ℝ :=
  ‖(WithLp.equiv 2 (Fin 3 → ℝ)).symm v‖
/-- The per-node property established by the Skeleton Metrics pass:
`length` is the Euclidean norm of `offset`, and `offset_unit` is the
normalized offset when `length` is nonzero and the untouched offset when
`length` is zero. -/
def C8good (n : Node ℝ) : Prop :=
  n.length = euclideanNorm3 n.offset ∧
  (n.length ≠ 0 → n.offset_unit = fun j => n.offset j / n.length) ∧
  (n.length = 0 → n.offset_unit = n.offset)
/-- A minimal two-joint skeleton: a root at the origin whose only rotation
channel is `Zrotation`, and one end-site child at offset `(0, 1, 0)` with
no channels. -/
def minimal2Tree : Node ℝ :=
  Node.mk "root" ["Zrotation"] ![0, 0, 0] false 0 ![0, 0, 0]
    [Node.mk "child" [] ![0, 1, 0] true 0 ![0, 0, 0] []]

def c2SoloTree : Node ℚ :=
  Node.mk "r" ["Xrotation"] ![0, 0, 0] false 0 ![0, 0, 0] []
def c5EndSiteNode : Node ℚ :=
  Node.mk "e" [] ![0, 0, 0] true 0 ![0, 0, 0] []
def c5ChildNode : Node ℚ :=
  Node.mk "b" [] ![0, 2, 0] false 0 ![0, 0, 0] []
def c5JointNode : Node ℚ :=
  Node.mk "a" [] ![1, 0, 0] false 0 ![0, 0, 0] [c5ChildNode]

/-! ## Lemmas: the reconciler as a fold over the visited-node sequence -/

theorem popVisit_append (jo : String → Option (ℕ × String))
    (l1 l2 : List (Node α)) (s : PopState α) :
    popVisit jo (l1 ++ l2) s =
      match popVisit jo l1 s with
      | Except.ok s1 => popVisit jo l2 s1
      | Except.error e => Except.error e := by
  induction l1 generalizing s with
  | nil => simp [popVisit]
  | cons m rest ih =>
    simp only [List.cons_append, popVisit]
    cases h : jo (strToLower m.name) with
    | none => rfl
    | some p =>
      obtain ⟨ji, std⟩ := p
      by_cases hf : fileOrderString m.channels = std
      · simp [hf, ih]
      · simp [hf]

mutual

theorem populate_eq_popVisit (jo : String → Option (ℕ × String))
    (n : Node α) (s : PopState α) :
    populate_channel_order_and_offsets jo n s = popVisit jo (visitSeq n) s := by
  cases n with
  | mk nm chs off es len ou cs =>
    cases es with
    | true =>
        simp [populate_channel_order_and_offsets, visitSeq, popVisit]
    | false =>
        simp only [populate_channel_order_and_offsets, visitSeq,
          Bool.false_eq_true, if_false]
        cases h : jo (strToLower nm) with
        | none => simp [popVisit, Node.name, h]
        | some p =>
          obtain ⟨ji, std⟩ := p
          by_cases hf : fileOrderString chs = std
          · simp only [popVisit, Node.name, Node.channels, Node.offset, h,
              if_pos hf, hf]
            exact populate_children_eq_popVisit jo cs (writeJoint s ji off)
          · simp [popVisit, Node.name, Node.channels, h, hf]

theorem populate_children_eq_popVisit (jo : String → Option (ℕ × String))
    (l : List (Node α)) (s : PopState α) :
    populate_children jo l s = popVisit jo (visitForest l) s := by
  cases l with
  | nil => simp [populate_children, visitForest, popVisit]
  | cons c cs =>
    simp only [populate_children, visitForest]
    rw [popVisit_append, ← populate_eq_popVisit jo c s]
    cases populate_channel_order_and_offsets jo c s with
    | ok s2 => exact populate_children_eq_popVisit jo cs s2
    | error e => rfl

end

theorem popVisit_ok_char (jo : String → Option (ℕ × String))
    (l : List (Node α)) (s : PopState α)
    (h : ∀ m ∈ l, reconciles jo m = true) :
    ∃ offs, popVisit jo l s =
      Except.ok ⟨coAfter (l.map (slotOf jo)) s.channel_order s.index, offs,
        s.index + 3 * l.length⟩ := by
  induction l generalizing s with
  | nil => exact ⟨s.offsets, by simp [popVisit, coAfter]⟩
  | cons m rest ih =>
    have hm := h m (List.mem_cons_self m rest)
    cases hl : jo (strToLower m.name) with
    | none => simp [reconciles, hl] at hm
    | some p =>
      obtain ⟨ji, std⟩ := p
      have hf : fileOrderString m.channels = std := by
        simpa [reconciles, hl] using hm
      obtain ⟨offs, hrec⟩ := ih (writeJoint s ji m.offset)
        (fun x hx => h x (List.mem_cons_of_mem _ hx))
      refine ⟨offs, ?_⟩
      simp only [popVisit, hl, hf, if_pos rfl]
      rw [hrec]
      simp only [List.map_cons, coAfter, slotOf, hl, writeJoint, writeRun,
        List.length_cons, if_true, Except.ok.injEq, PopState.mk.injEq]
      exact ⟨trivial, trivial, by omega⟩

theorem popVisit_ok_reconciles (jo : String → Option (ℕ × String))
    (l : List (Node α)) (s s' : PopState α)
    (h : popVisit jo l s = Except.ok s') : ∀ m ∈ l, reconciles jo m = true := by
  induction l generalizing s with
  | nil => simp
  | cons m rest ih =>
    intro x hx
    cases hl : jo (strToLower m.name) with
    | none => simp [popVisit, hl] at h
    | some p =>
      obtain ⟨ji, std⟩ := p
      by_cases hf : fileOrderString m.channels = std
      · cases hx with
        | head => simp [reconciles, hl, hf]
        | tail b hx =>
            exact ih (writeJoint s ji m.offset)
              (by simpa [popVisit, hl, hf] using h) x hx
      · simp [popVisit, hl, hf] at h

theorem popVisit_first_error (jo : String → Option (ℕ × String))
    (l1 : List (Node α)) (m : Node α) (l2 : List (Node α)) (s : PopState α)
    (ji : ℕ) (std : String)
    (h1 : ∀ x ∈ l1, reconciles jo x = true)
    (hm : jo (strToLower m.name) = some (ji, std))
    (hne : fileOrderString m.channels ≠ std) :
    popVisit jo (l1 ++ m :: l2) s =
      Except.error (PopErr.assertError std (fileOrderString m.channels)
        m.name) := by
  induction l1 generalizing s with
  | nil => simp [popVisit, hm, hne]
  | cons x rest ih =>
    have hx := h1 x (List.mem_cons_self x rest)
    cases hl : jo (strToLower x.name) with
    | none => simp [reconciles, hl] at hx
    | some p =>
      obtain ⟨ji2, std2⟩ := p
      have hf : fileOrderString x.channels = std2 := by
        simpa [reconciles, hl] using hx
      simp only [List.cons_append, popVisit, hl, hf, if_pos rfl]
      exact ih _ (fun y hy => h1 y (List.mem_cons_of_mem _ hy))

/-! ## Lemmas: the final channel-order buffer is a permutation -/

theorem length_writeRun (co : List ℕ) (j idx : ℕ) :
    (writeRun co j idx).length = co.length := by
  simp [writeRun]

theorem length_coAfter (slots : List ℕ) (co : List ℕ) (idx : ℕ) :
    (coAfter slots co idx).length = co.length := by
  induction slots generalizing co idx with
  | nil => rfl
  | cons j rest ih => simp [coAfter, ih, length_writeRun]

theorem getD_set_of_lt (l : List ℕ) (i p a : ℕ) (hp : p < l.length) :
    (l.set i a).getD p 0 = if i = p then a else l.getD p 0 := by
  rw [List.getD_eq_getElem _ _ (by simpa using hp), List.getD_eq_getElem _ _ hp]
  rw [List.getElem_set]

theorem getD_writeRun (co : List ℕ) (j idx p : ℕ) (hp : p < co.length) :
    (writeRun co j idx).getD p 0 =
      if p / 3 = j then idx + p % 3 else co.getD p 0 := by
  simp only [writeRun]
  rw [getD_set_of_lt _ _ _ _ (by simpa using hp),
    getD_set_of_lt _ _ _ _ (by simpa using hp),
    getD_set_of_lt _ _ _ _ hp]
  by_cases h : p / 3 = j
  · have h3 : p % 3 = 0 ∨ p % 3 = 1 ∨ p % 3 = 2 := by omega
    rcases h3 with h0 | h1 | h2
    · have hc1 : ¬(j * 3 + 2 = p) := by omega
      have hc2 : ¬(j * 3 + 1 = p) := by omega
      have hc3 : j * 3 = p := by omega
      simp [hc1, hc2, hc3, h, h0]
    · have hc1 : ¬(j * 3 + 2 = p) := by omega
      have hc2 : j * 3 + 1 = p := by omega
      simp [hc1, hc2, h, h1]
    · have hc1 : j * 3 + 2 = p := by omega
      simp [hc1, h, h2]
  · have hc1 : ¬(j * 3 + 2 = p) := by omega
    have hc2 : ¬(j * 3 + 1 = p) := by omega
    have hc3 : ¬(j * 3 = p) := by omega
    simp [hc1, hc2, hc3, h]

theorem getD_coAfter (slots : List ℕ) (hnd : slots.Nodup) (co : List ℕ)
    (idx p : ℕ) (hp : p < co.length) :
    (coAfter slots co idx).getD p 0 =
      if p / 3 ∈ slots then idx + 3 * slots.indexOf (p / 3) + p % 3
      else co.getD p 0 := by
  induction slots generalizing co idx with
  | nil => simp [coAfter]
  | cons j rest ih =>
    obtain ⟨hj, hndr⟩ := List.nodup_cons.mp hnd
    simp only [coAfter]
    rw [ih hndr _ _ (by simpa [length_writeRun] using hp)]
    by_cases hmem : p / 3 ∈ rest
    · have hne : p / 3 ≠ j := fun he => hj (he ▸ hmem)
      rw [if_pos hmem, if_pos (List.mem_cons_of_mem _ hmem),
        List.indexOf_cons_ne _ (Ne.symm hne)]
      omega
    · by_cases hej : p / 3 = j
      · subst hej
        rw [if_neg hmem, getD_writeRun _ _ _ _ hp, if_pos rfl,
          if_pos (List.mem_cons_self _ _), List.indexOf_cons_self]
        omega
      · have hnc : p / 3 ∉ (j :: rest) := by
          simp [List.mem_cons, hej, hmem]
        rw [if_neg hmem, getD_writeRun _ _ _ _ hp, if_neg hej, if_neg hnc]

theorem coAfter_perm (slots : List ℕ) (K : ℕ)
    (hperm : slots.Perm (List.range K)) (co : List ℕ)
    (hlen : co.length = 3 * K) :
    (coAfter slots co 0).Perm (List.range (3 * K)) := by
  have hnd : slots.Nodup := hperm.nodup_iff.mpr (List.nodup_range K)
  have hmem : ∀ j, j ∈ slots ↔ j < K := fun j => by
    rw [hperm.mem_iff, List.mem_range]
  have hlenS : slots.length = K := by simpa using hperm.length_eq
  have hL : (coAfter slots co 0).length = 3 * K := by
    rw [length_coAfter, hlen]
  have hval : ∀ p, p < 3 * K →
      (coAfter slots co 0).getD p 0 =
        3 * slots.indexOf (p / 3) + p % 3 := by
    intro p hp
    rw [getD_coAfter slots hnd co 0 p (by omega)]
    have hp3 : p / 3 ∈ slots := (hmem _).mpr (by omega)
    simp [hp3]
  have hlt : ∀ p, p < 3 * K → (coAfter slots co 0).getD p 0 < 3 * K := by
    intro p hp
    rw [hval p hp]
    have h1 : slots.indexOf (p / 3) < K := by
      rw [← hlenS]
      exact List.indexOf_lt_length.mpr ((hmem _).mpr (by omega))
    omega
  have hndL : (coAfter slots co 0).Nodup := by
    rw [List.nodup_iff_injective_get]
    intro i1 i2 hg
    have hi1 : (i1 : ℕ) < 3 * K := by rw [← hL]; exact i1.isLt
    have hi2 : (i2 : ℕ) < 3 * K := by rw [← hL]; exact i2.isLt
    have hg2 : 3 * slots.indexOf (i1.val / 3) + i1.val % 3 =
        3 * slots.indexOf (i2.val / 3) + i2.val % 3 := by
      rw [← hval i1.val hi1, ← hval i2.val hi2,
        List.getD_eq_get _ _ i1.isLt, List.getD_eq_get _ _ i2.isLt, hg]
    have hidx : slots.indexOf (i1.val / 3) = slots.indexOf (i2.val / 3) := by
      omega
    have hmem1 : i1.val / 3 ∈ slots := (hmem _).mpr (by omega)
    have hmem2 : i2.val / 3 ∈ slots := (hmem _).mpr (by omega)
    have hdiv : i1.val / 3 = i2.val / 3 :=
      (List.indexOf_inj hmem1 hmem2).mp hidx
    apply Fin.ext
    omega
  have hsub : (coAfter slots co 0).toFinset ⊆ (List.range (3 * K)).toFinset := by
    intro x hx
    rw [List.mem_toFinset] at hx
    obtain ⟨i, hi⟩ := List.mem_iff_get.mp hx
    rw [List.mem_toFinset, List.mem_range]
    have hxg : x = (coAfter slots co 0).getD i.val 0 := by
      rw [List.getD_eq_get _ _ i.isLt, hi]
    rw [hxg]
    exact hlt i.val (by rw [← hL]; exact i.isLt)
  have hcard : ((List.range (3 * K)).toFinset).card ≤
      ((coAfter slots co 0).toFinset).card := by
    rw [List.card_toFinset, List.card_toFinset, hndL.dedup,
      (List.nodup_range (3 * K)).dedup, hL, List.length_range]
  exact List.perm_of_nodup_nodup_toFinset_eq hndL (List.nodup_range _)
    (Finset.eq_of_subset_of_card_le hsub hcard)

/-! ## Lemmas: dict lookup and index maps -/

theorem dictOfAux_mem (jol : List (String × String)) (k : String) (i : ℕ)
    (hk : k ∈ jol.map Prod.fst) :
    ∃ v, dictOfAux jol k i =
      some (i + (jol.map Prod.fst).indexOf k, v) := by
  induction jol generalizing i with
  | nil => simp at hk
  | cons p rest ih =>
    obtain ⟨k0, v0⟩ := p
    by_cases he : k0 = k
    · subst he
      exact ⟨v0, by simp [dictOfAux, List.indexOf_cons_self]⟩
    · have hk2 : k ∈ rest.map Prod.fst := by
        simp only [List.map_cons] at hk
        rcases List.mem_cons.mp hk with h1 | h1
        · exact absurd h1.symm he
        · exact h1
      obtain ⟨v, hv⟩ := ih (i + 1) hk2
      refine ⟨v, ?_⟩
      simp only [dictOfAux, he, if_false, hv, List.map_cons,
        List.indexOf_cons_ne _ he, Option.some.injEq, Prod.mk.injEq]
      exact ⟨by omega, trivial⟩

theorem map_indexOf_self (l : List String) (hnd : l.Nodup) :
    l.map (fun k => l.indexOf k) = List.range l.length := by
  induction l with
  | nil => rfl
  | cons k0 rest ih =>
    obtain ⟨hk0, hndr⟩ := List.nodup_cons.mp hnd
    have htail : rest.map (fun k => List.indexOf k (k0 :: rest)) =
        (List.range rest.length).map Nat.succ := by
      have h1 : rest.map (fun k => List.indexOf k (k0 :: rest)) =
          rest.map (fun k => Nat.succ (List.indexOf k rest)) :=
        List.map_congr_left (fun k hk =>
          List.indexOf_cons_ne _ (fun he => hk0 (he ▸ hk)))
      rw [h1, ← ih hndr, List.map_map]
      rfl
    simp only [List.map_cons, List.indexOf_cons_self, List.length_cons,
      List.range_succ_eq_map, htail]

/-! ## Claims C3, C6, C1 -/

/-- C3: for every Node tree whose non-end-site joints exactly match the
canonical joint order's names (each canonical joint appearing exactly
once, as a permutation of the table's keys) with matching per-joint
rotation-channel order, `populate_channel_order_and_offsets` succeeds and
fills `channel_order` with a permutation of `0..N-1`, with
`N = 3 × canonical-joint-count`. -/
theorem claim_C3 (jol : List (String × String)) (t : Node α)
    (co : List ℕ) (offs0 : List α)
    (hndk : (jol.map Prod.fst).Nodup)
    (hco : co.length = 3 * jol.length)
    (hnames : ((visitSeq t).map (fun m => strToLower m.name)).Perm
      (jol.map Prod.fst))
    (hmatch : ∀ m ∈ visitSeq t, reconciles (dictOf jol) m = true) :
    ∃ s2, populate_channel_order_and_offsets (dictOf jol) t ⟨co, offs0, 0⟩ =
        Except.ok s2 ∧
      s2.channel_order.Perm (List.range (3 * jol.length)) := by
  obtain ⟨offs, hok⟩ :=
    popVisit_ok_char (dictOf jol) (visitSeq t) ⟨co, offs0, 0⟩ hmatch
  refine ⟨⟨coAfter ((visitSeq t).map (slotOf (dictOf jol))) co 0, offs,
    0 + 3 * (visitSeq t).length⟩, ?_, ?_⟩
  · rw [populate_eq_popVisit]
    exact hok
  · show (coAfter ((visitSeq t).map (slotOf (dictOf jol))) co 0).Perm
      (List.range (3 * jol.length))
    apply coAfter_perm _ jol.length ?_ co hco
    have hslot : ∀ m ∈ visitSeq t, slotOf (dictOf jol) m =
        (jol.map Prod.fst).indexOf (strToLower m.name) := by
      intro m hm
      have hmem : strToLower m.name ∈ jol.map Prod.fst :=
        hnames.subset (List.mem_map_of_mem _ hm)
      obtain ⟨v, hv⟩ := dictOfAux_mem jol _ 0 hmem
      simp [slotOf, dictOf, hv]
    have e1 : (visitSeq t).map (slotOf (dictOf jol)) =
        ((visitSeq t).map (fun m => strToLower m.name)).map
          (fun k => (jol.map Prod.fst).indexOf k) := by
      rw [List.map_map]
      exact List.map_congr_left (fun m hm => hslot m hm)
    rw [e1]
    have e2 := hnames.map (fun k => (jol.map Prod.fst).indexOf k)
    rw [map_indexOf_self _ hndk, List.length_map] at e2
    exact e2

/-- C6: if the pre-order visited sequence of non-end-site joints splits as
`l1 ++ m :: l2` where every joint of `l1` reconciles and `m` has a
canonical entry whose expected string differs from the extracted file
string, then `populate_channel_order_and_offsets` fails with a
channel-order-mismatch assertion naming exactly `m` — regardless of the
joints after `m` — and in particular never returns success. -/
theorem claim_C6 (jo : String → Option (ℕ × String)) (t : Node α)
    (l1 l2 : List (Node α)) (m : Node α) (ji : ℕ) (std : String)
    (s : PopState α)
    (hsplit : visitSeq t = l1 ++ m :: l2)
    (hok : ∀ x ∈ l1, reconciles jo x = true)
    (hm : jo (strToLower m.name) = some (ji, std))
    (hne : fileOrderString m.channels ≠ std) :
    populate_channel_order_and_offsets jo t s =
        Except.error
          (PopErr.assertError std (fileOrderString m.channels) m.name) ∧
      ∀ s2, populate_channel_order_and_offsets jo t s ≠ Except.ok s2 := by
  have h := popVisit_first_error jo l1 m l2 s ji std hok hm hne
  rw [populate_eq_popVisit, hsplit]
  exact ⟨h, by simp [h]⟩


/-- C1 counterexample: a directory whose first file contains a joint name
(`zzz`) with no entry in the standard canonical order makes `load_all`
propagate the lookup failure (`KeyError`) instead of skipping the file:
the loader dies even though the remaining file would load fine. -/
theorem claim_C1_counterexample :
    load_all standard_joint_order_list [(c1BadFile, []), (c1GoodFile, [[1]])] =
        Except.error (PopErr.keyError "zzz") ∧
      load_all standard_joint_order_list [(c1GoodFile, [[1]])] ≠
        Except.error (PopErr.keyError "zzz") := by
  constructor
  · decide
  · decide

/-- C1 amended: in the directory-batch loader, only channel-order
mismatches (Python `AssertionError`, raised by the reconciliation
assertion) are treated as non-fatal — the file is skipped and processing
continues — while a missing canonical entry (Python `KeyError` from the
joint-order lookup) is not caught and propagates out of `load_all`. -/
theorem claim_C1_amended [Zero α] (jol : List (String × String))
    (root : Node α) (frames : List (List α))
    (rest : List (Node α × List (List α))) (e : PopErr)
    (h : populate_channel_order_and_offsets (dictOf jol) root
      (initState jol) = Except.error e) :
    load_all jol ((root, frames) :: rest) =
      match e with
      | PopErr.assertError _ _ _ => load_all jol rest
      | PopErr.keyError k => Except.error (PopErr.keyError k) := by
  cases e with
  | keyError k => simp [load_all, h]
  | assertError a b c => simp [load_all, h]

/-- Witness for the amended C1 statement at concrete inputs: a file whose
root name misses the table propagates a `KeyError`, while a file whose
root mismatches the expected channel order is skipped (the loader then
returns the empty result). -/
theorem claim_C1_amended_witness :
    load_all [("a", "xyz")]
        [((Node.mk "b" [] ![(0 : ℚ), 0, 0] false 0 ![0, 0, 0] []), [])] =
        Except.error (PopErr.keyError "b") ∧
      load_all [("a", "xyz")]
        [((Node.mk "a" ["Yrotation"] ![(0 : ℚ), 0, 0] false 0
          ![0, 0, 0] []), [])] =
        Except.ok ([], []) := by
  constructor
  · exact claim_C1_amended [("a", "xyz")] _ [] []
      (PopErr.keyError "b") (by decide)
  · have h2 := claim_C1_amended [("a", "xyz")]
      (Node.mk "a" ["Yrotation"] ![(0 : ℚ), 0, 0] false 0 ![0, 0, 0] [])
      [] [] (PopErr.assertError "xyz" "y" "a") (by decide)
    rw [h2]
    rfl


/-- Witness for C3 at a concrete table and tree. -/
theorem claim_C3_witness :
    ∃ s2, populate_channel_order_and_offsets (dictOf c3Table) c3Tree
        ⟨List.replicate 6 0, List.replicate 6 0, 0⟩ = Except.ok s2 ∧
      s2.channel_order.Perm (List.range (3 * c3Table.length)) :=
  claim_C3 c3Table c3Tree (List.replicate 6 0) (List.replicate 6 0)
    (by decide) (by decide) (by decide) (by decide)


/-- Witness for C6 at a concrete table and tree: the child declares `zyx`
where the table expects `yzx`, and reconciliation fails naming that
child. -/
theorem claim_C6_witness :
    populate_channel_order_and_offsets (dictOf c3Table) c6Tree
        ⟨List.replicate 6 0, List.replicate 6 0, 0⟩ =
      Except.error
        (PopErr.assertError "yzx" (fileOrderString c6Child.channels)
          c6Child.name) ∧
    ∀ s2, populate_channel_order_and_offsets (dictOf c3Table) c6Tree
        ⟨List.replicate 6 0, List.replicate 6 0, 0⟩ ≠ Except.ok s2 :=
  claim_C6 (dictOf c3Table) c6Tree [c6Tree] [] c6Child 1 "yzx"
    ⟨List.replicate 6 0, List.replicate 6 0, 0⟩
    (by rfl) (by decide) (by decide) (by decide)

/-! ## Claims C8, C10: the skeleton-metrics pass -/


theorem withName_self (n : Node α) : n.withName n.name = n := by
  cases n
  rfl

theorem name_withName (n : Node α) (s : String) : (n.withName s).name = s := by
  cases n
  rfl

theorem es_withName (n : Node α) (s : String) :
    (n.withName s).is_end_site = n.is_end_site := by
  cases n
  rfl

theorem renameEndSite_eq (p : String) (c : Node α) :
    renameEndSite p c = c.withName
      (if c.is_end_site = true ∧ c.name = "End Site" then p ++ "EndSite"
       else c.name) := by
  by_cases h : c.is_end_site = true ∧ c.name = "End Site"
  · simp [renameEndSite, h]
  · simp [renameEndSite, h, withName_self]

theorem endSiteConcat_ne (p : String) : p ++ "EndSite" ≠ "End Site" := by
  intro h
  have hd : p.data ++ "EndSite".data = "End Site".data := by
    have h2 := congrArg String.data h
    simpa [String.data_append] using h2
  have hlen : p.data.length + 7 = 8 := by
    have h3 := congrArg List.length hd
    rw [List.length_append] at h3
    rw [show ("EndSite".data.length = 7) from by decide,
      show ("End Site".data.length = 8) from by decide] at h3
    exact h3
  have h1 : p.data.length = 1 := by omega
  obtain ⟨c, hc⟩ := List.length_eq_one.mp h1
  rw [hc] at hd
  have : "EndSite".data = ['n', 'd', ' ', 'S', 'i', 't', 'e'] := by
    have h4 := List.tail_eq_of_cons_eq hd
    exact h4
  exact absurd this (by decide)

theorem name_process_skeleton [Field α] [DecidableEq α] (sq : α → α)
    (n : Node α) : (process_skeleton sq n).name = n.name := by
  cases n
  simp [process_skeleton, Node.name]

theorem es_process_skeleton [Field α] [DecidableEq α] (sq : α → α)
    (n : Node α) : (process_skeleton sq n).is_end_site = n.is_end_site := by
  cases n
  simp [process_skeleton, Node.is_end_site]

theorem sqrt_dot3_eq_norm (v : Fin 3 → ℝ) :
    Real.sqrt (dot3 v) = euclideanNorm3 v := by
  rw [euclideanNorm3, EuclideanSpace.norm_eq]
  congr 1
  simp only [WithLp.equiv_symm_pi_apply, Real.norm_eq_abs, sq_abs]
  rw [dot3, Fin.sum_univ_three]
  ring

mutual

theorem c8aux (n : Node ℝ) (s : String) :
    NodeAll C8good (process_skeleton Real.sqrt (n.withName s)) := by
  cases n with
  | mk nm chs off es len ou cs =>
    simp only [Node.withName, process_skeleton, NodeAll]
    constructor
    · refine ⟨?_, ?_, ?_⟩
      · simp [Node.length, Node.offset, sqrt_dot3_eq_norm]
      · intro h
        simp only [Node.length] at h
        simp [Node.offset_unit, Node.offset, Node.length, if_pos h]
      · intro h
        simp only [Node.length] at h
        simp [Node.offset_unit, Node.offset, Node.length, h]
    · exact c8auxF cs s

theorem c8auxF (l : List (Node ℝ)) (p : String) :
    ForestAll C8good (process_children Real.sqrt p l) := by
  cases l with
  | nil => simp [process_children, ForestAll]
  | cons c cs =>
    simp only [process_children, ForestAll]
    constructor
    · rw [renameEndSite_eq]
      exact c8aux c _
    · exact c8auxF cs p

end

/-- C8: the Skeleton Metrics pass (`process_skeleton` instantiated with
the real square root) sets, at every node of the resulting tree, `length`
to the Euclidean norm of `offset`, and `offset_unit` to `offset / length`
when the length is nonzero and to the unchanged offset when it is zero:
the division is guarded and a zero-length offset is not an error. -/
theorem claim_C8 (t : Node ℝ) :
    NodeAll C8good (process_skeleton Real.sqrt t) := by
  have h := c8aux t t.name
  rwa [withName_self] at h

theorem renameEndSite_process [Field α] [DecidableEq α] (sq : α → α)
    (p : String) (c : Node α) :
    renameEndSite p (process_skeleton sq (renameEndSite p c)) =
      process_skeleton sq (renameEndSite p c) := by
  by_cases h : c.is_end_site = true ∧ c.name = "End Site"
  · have hn : (process_skeleton sq (renameEndSite p c)).name =
        p ++ "EndSite" := by
      rw [name_process_skeleton, renameEndSite_eq, name_withName, if_pos h]
    rw [renameEndSite_eq, if_neg (fun hcon => endSiteConcat_ne p
      (hn.symm.trans hcon.2))]
    exact withName_self _
  · have hn : (process_skeleton sq (renameEndSite p c)).name = c.name := by
      rw [name_process_skeleton, renameEndSite_eq, name_withName, if_neg h]
    have hes : (process_skeleton sq (renameEndSite p c)).is_end_site =
        c.is_end_site := by
      rw [es_process_skeleton, renameEndSite_eq, es_withName]
    rw [renameEndSite_eq, if_neg
      (fun hcon => h ⟨hes.symm.trans hcon.1, hn.symm.trans hcon.2⟩)]
    exact withName_self _

mutual

theorem c10aux [Field α] [DecidableEq α] (sq : α → α) (n : Node α)
    (s : String) :
    process_skeleton sq (process_skeleton sq (n.withName s)) =
      process_skeleton sq (n.withName s) := by
  cases n with
  | mk nm chs off es len ou cs =>
    simp only [Node.withName, process_skeleton]
    exact congrArg (Node.mk s chs off es _ _) (c10auxF sq cs s)

theorem c10auxF [Field α] [DecidableEq α] (sq : α → α) (l : List (Node α))
    (p : String) :
    process_children sq p (process_children sq p l) =
      process_children sq p l := by
  cases l with
  | nil => simp [process_children]
  | cons c cs =>
    simp only [process_children]
    refine congrArg₂ List.cons ?_ (c10auxF sq cs p)
    rw [renameEndSite_process]
    rw [renameEndSite_eq p c]
    exact c10aux sq c _

end

/-- C10: the Skeleton Metrics pass is idempotent — applying
`process_skeleton` twice (for any square-root primitive) leaves the tree
exactly as applying it once: the end-site rename guard compares against
the literal `End Site` name, which no renamed node can carry again, and
`length` / `offset_unit` are recomputed from the unchanged offset to the
same values. -/
theorem claim_C10 [Field α] [DecidableEq α] (sq : α → α) (t : Node α) :
    process_skeleton sq (process_skeleton sq t) = process_skeleton sq t := by
  have h := c10aux sq t t.name
  rwa [withName_self] at h

/-! ## Claim C9: the frame decomposer degree-radian round trip -/

/-- C9: the stored angles-in-radians row equals the angles-in-degrees row
multiplied elementwise by `π / 180`, and multiplying back by `180 / π`
recovers the degree row exactly (hence within any floating-point
tolerance). -/
theorem claim_C9 (ang_idx : List ℕ) (values : List ℝ) :
    on_frame_angles_rad ang_idx values =
        (on_frame_angles_deg ang_idx values).map
          (fun d => d * Real.pi / 180) ∧
      (on_frame_angles_rad ang_idx values).map
          (fun r => r * (180 / Real.pi)) =
        on_frame_angles_deg ang_idx values := by
  refine ⟨rfl, ?_⟩
  rw [on_frame_angles_rad, List.map_map]
  have hc : ((fun r => r * (180 / Real.pi)) ∘
      fun d => d * Real.pi / 180) = id := by
    funext d
    have hpi := Real.pi_ne_zero
    simp only [Function.comp_apply, id_eq]
    field_simp
  rw [hc, List.map_id]

/-! ## Claims C2, C7: the numpy bone renderer -/


/-- C2 counterexample: the numpy `get_bones` consumes the caller's angle
list (`angles_rad.pop(0)`): after a first call with the one-angle list the
returned list state is empty, so the caller's sequence is not usable
unchanged — the second call on it fails (`pop(0)` from an empty list)
instead of producing identical output. -/
theorem claim_C2_counterexample :
    (get_bones realTrig minimal2Tree [(1 : ℝ)] 1).map (fun r => r.2) =
        some [] ∧
      get_bones realTrig minimal2Tree [] 1 = none := by
  exact ⟨rfl, rfl⟩

theorem popRotLoop_consumes [Field α] (tr : Trig α) (chs : List String)
    (rot : Mat3 α) (angs : List α) (rot2 : Mat3 α) (rest : List α)
    (h : popRotLoop tr chs rot angs = some (rot2, rest)) :
    rest = angs.drop (chs.countP isRotChannel) := by
  induction chs generalizing rot angs with
  | nil =>
      simp only [popRotLoop, Option.some.injEq, Prod.mk.injEq] at h
      rw [List.countP_nil, List.drop_zero, h.2]
  | cons ch chs ih =>
    simp only [popRotLoop] at h
    cases hrm : rotation_map tr ch with
    | none =>
      have hrc : isRotChannel ch = false := by
        rw [rotation_map] at hrm
        rw [isRotChannel]
        by_cases h1 : ch = "Xrotation"
        · simp [h1] at hrm
        · by_cases h2 : ch = "Yrotation"
          · simp [h1, h2] at hrm
          · by_cases h3 : ch = "Zrotation"
            · simp [h1, h2, h3] at hrm
            · simp [h1, h2, h3]
      rw [hrm] at h
      rw [List.countP_cons, hrc]
      simpa using ih rot angs h
    | some f =>
      have hrc : isRotChannel ch = true := by
        rw [rotation_map] at hrm
        rw [isRotChannel]
        by_cases h1 : ch = "Xrotation"
        · simp [h1]
        · by_cases h2 : ch = "Yrotation"
          · simp [h1, h2]
          · by_cases h3 : ch = "Zrotation"
            · simp [h1, h2, h3]
            · simp [h1, h2, h3] at hrm
      rw [hrm] at h
      cases angs with
      | nil => simp at h
      | cons a rest2 =>
        simp only at h
        rw [List.countP_cons, hrc]
        simp only [if_true]
        rw [List.drop_succ_cons]
        exact ih _ rest2 h

mutual

theorem get_bones_consumes [Field α] (tr : Trig α) (n : Node α)
    (angs : List α) (pt : Mat4 α)
    (bs : List ((α × α × α) × (α × α × α))) (rest : List α)
    (h : get_bones tr n angs pt = some (bs, rest)) :
    rest = angs.drop (rotCount n) := by
  cases n with
  | mk nm chs off es len ou cs =>
    simp only [get_bones] at h
    cases hpr : popRotLoop tr chs 1 angs with
    | none => rw [hpr] at h; simp at h
    | some pr =>
      obtain ⟨rot, angs1⟩ := pr
      rw [hpr] at h
      simp only at h
      have h1 := get_bones_children_consumes tr cs angs1 _ _ bs rest h
      have h2 := popRotLoop_consumes tr chs 1 angs rot angs1 hpr
      rw [rotCount, h1, h2, List.drop_drop, Nat.add_comm]

theorem get_bones_children_consumes [Field α] (tr : Trig α)
    (l : List (Node α)) (angs : List α) (nt : Mat4 α) (p1 : Vec4 α)
    (bs : List ((α × α × α) × (α × α × α))) (rest : List α)
    (h : get_bones_children tr l angs nt p1 = some (bs, rest)) :
    rest = angs.drop (rotCountForest l) := by
  cases l with
  | nil =>
      simp only [get_bones_children, Option.some.injEq, Prod.mk.injEq] at h
      rw [rotCountForest, List.drop_zero, ← h.2]
  | cons c cs =>
      simp only [get_bones_children] at h
      cases hc : get_bones tr c angs nt with
      | none => rw [hc] at h; simp at h
      | some r1 =>
        obtain ⟨bs1, angs2⟩ := r1
        rw [hc] at h
        simp only at h
        cases hcs : get_bones_children tr cs angs2 nt p1 with
        | none => rw [hcs] at h; simp at h
        | some r2 =>
          obtain ⟨bs2, angs3⟩ := r2
          rw [hcs] at h
          simp only [Option.some.injEq, Prod.mk.injEq] at h
          have h1 := get_bones_consumes tr c angs nt bs1 angs2 hc
          have h2 := get_bones_children_consumes tr cs angs2 nt p1 bs2 angs3
            hcs
          rw [rotCountForest, ← h.2, h2, h1, List.drop_drop, Nat.add_comm]

end

/-- C2 amended: the numpy `get_bones` is a deterministic function of the
tree, the angle-list value and the parent transform, but it consumes the
angle list rather than leaving it unchanged: a successful call returns,
as the new list state, the input with the subtree's rotation-channel
count dropped from the front (the effect of the `pop(0)` mutation on the
caller's list).  A second call reusing the caller's mutated list
therefore does not see the original sequence. -/
theorem claim_C2_amended [Field α] (tr : Trig α) (n : Node α)
    (angs : List α) (pt : Mat4 α)
    (bs : List ((α × α × α) × (α × α × α))) (rest : List α)
    (h : get_bones tr n angs pt = some (bs, rest)) :
    rest = angs.drop (rotCount n) :=
  get_bones_consumes tr n angs pt bs rest h


/-- Witness for the amended C2 statement: a one-joint tree with one
rotation channel consumes exactly one angle from the caller's list. -/
theorem claim_C2_amended_witness :
    [(2 : ℚ)] = [(1 : ℚ), 2].drop (rotCount c2SoloTree) :=
  claim_C2_amended qTrig c2SoloTree [1, 2] 1 [] [2] rfl

/-- C7: on the minimal two-joint skeleton, `get_bones` with angle `π/2`
yields the single bone from the origin to `(-1, 0, 0)`: the child offset
`(0, 1, 0)` rotated by 90 degrees about the z-axis. -/
theorem claim_C7 :
    get_bones realTrig minimal2Tree [Real.pi / 2] 1 =
      some ([((0, 0, 0), (-1, 0, 0))], []) := by
  have hz : rotation_map realTrig "Zrotation" = some (rot_z realTrig) := rfl
  simp only [minimal2Tree, get_bones, popRotLoop, hz, get_bones_children]
  norm_num [Real.sin_pi_div_two, Real.cos_pi_div_two, mkLocal, rot_z,
    realTrig, Matrix.one_mul, Matrix.mulVec, Matrix.dotProduct,
    Fin.sum_univ_four, projPt, homog, Node.offset, Node.channels,
    Node.children, Matrix.cons_val_zero, Matrix.cons_val_one,
    Matrix.head_cons, Matrix.vecHead, Matrix.vecTail, Function.comp_apply]

/-! ## Claim C5: skip-set semantics of `joint_positions` -/

/-- C5: skip semantics of the theano `joint_positions`.  (a) A skipped
end-site joint (which per the data model carries no channels) contributes
nothing: its position is removed from the output, its subtree is not
recursed into, and the angle cursor is untouched.  (b) A skipped
non-end-site joint omits its own position but its children are still
computed and emitted under the accumulated transform that includes the
skipped joint's rotation and offset.  (c) A non-skipped joint's own
position `node_trans[:, 3]` is still emitted, as the head of its output,
regardless of which descendants are skipped. -/
theorem claim_C5 [Field α] [DecidableEq α] (tr : Trig α)
    (fixed : Option (List (String × α))) (lengths : Option (ℕ → α))
    (lengths_map : String → ℕ) (skip : List String)
    (nm : String) (chs : List String) (off : Fin 3 → α) (es : Bool)
    (len : α) (ou : Fin 3 → α) (cs : List (Node α))
    (angles : ℕ → α) (i : ℕ) (pt : Mat4 α) :
    (strToLower nm ∈ skip → es = true → chs = [] →
      joint_positions tr fixed lengths lengths_map skip
        (Node.mk nm chs off es len ou cs) angles i pt = ([], i)) ∧
    (strToLower nm ∈ skip → es = false →
      joint_positions tr fixed lengths lengths_map skip
        (Node.mk nm chs off es len ou cs) angles i pt =
      joint_positions_children tr fixed lengths lengths_map skip cs angles
        (idxRotLoop tr fixed nm angles chs 1 i).2
        (pt * mkLocal (idxRotLoop tr fixed nm angles chs 1 i).1
          (node_offset_sel lengths lengths_map nm off ou len))) ∧
    (strToLower nm ∉ skip →
      (joint_positions tr fixed lengths lengths_map skip
        (Node.mk nm chs off es len ou cs) angles i pt).1 =
      (fun r => (pt * mkLocal (idxRotLoop tr fixed nm angles chs 1 i).1
          (node_offset_sel lengths lengths_map nm off ou len)) r 3) ::
        (joint_positions_children tr fixed lengths lengths_map skip cs
          angles (idxRotLoop tr fixed nm angles chs 1 i).2
          (pt * mkLocal (idxRotLoop tr fixed nm angles chs 1 i).1
            (node_offset_sel lengths lengths_map nm off ou len))).1) := by
  refine ⟨?_, ?_, ?_⟩
  · intro hskip hes hchs
    subst hes hchs
    simp only [joint_positions]
    rw [if_pos ⟨hskip, by trivial⟩]
    rfl
  · intro hskip hes
    subst hes
    simp only [joint_positions]
    rw [if_neg (fun hcon => Bool.false_ne_true hcon.2)]
    simp only [if_pos hskip, List.nil_append]
  · intro hskip
    simp only [joint_positions]
    rw [if_neg (fun hcon => hskip hcon.1)]
    simp only [if_neg hskip, List.cons_append, List.nil_append]


/-- Witness for C5 at concrete rational inputs: a skipped end site yields
no output and leaves the cursor at 0; a skipped interior joint yields
exactly its children's positions computed through the skipped joint's
transform; without skipping, the joint's own position is emitted first. -/
theorem claim_C5_witness :
    (joint_positions qTrig none none (fun _ => 0) ["e"] c5EndSiteNode
        (fun _ => 0) 0 1 = ([], 0)) ∧
    (joint_positions qTrig none none (fun _ => 0) ["a"] c5JointNode
        (fun _ => 0) 0 1 =
      joint_positions_children qTrig none none (fun _ => 0) ["a"]
        [c5ChildNode] (fun _ => 0)
        (idxRotLoop qTrig none "a" (fun _ => 0) [] 1 0).2
        (1 * mkLocal (idxRotLoop qTrig none "a" (fun _ => 0) [] 1 0).1
          (node_offset_sel none (fun _ => 0) "a" ![1, 0, 0] ![0, 0, 0] 0))) ∧
    ((joint_positions qTrig none none (fun _ => 0) [] c5JointNode
        (fun _ => 0) 0 1).1 =
      (fun r => (1 * mkLocal (idxRotLoop qTrig none "a" (fun _ => 0) [] 1 0).1
          (node_offset_sel none (fun _ => 0) "a" ![1, 0, 0] ![0, 0, 0] 0))
          r 3) ::
        (joint_positions_children qTrig none none (fun _ => 0) []
          [c5ChildNode] (fun _ => 0)
          (idxRotLoop qTrig none "a" (fun _ => 0) [] 1 0).2
          (1 * mkLocal (idxRotLoop qTrig none "a" (fun _ => 0) [] 1 0).1
            (node_offset_sel none (fun _ => 0) "a" ![1, 0, 0] ![0, 0, 0]
              0))).1) := by
  refine ⟨?_, ?_, ?_⟩
  · exact (claim_C5 qTrig none none (fun _ => 0) ["e"] "e" [] ![0, 0, 0]
      true 0 ![0, 0, 0] [] (fun _ => 0) 0 1).1 (by decide) rfl rfl
  · exact (claim_C5 qTrig none none (fun _ => 0) ["a"] "a" [] ![1, 0, 0]
      false 0 ![0, 0, 0] [c5ChildNode] (fun _ => 0) 0 1).2.1 (by decide) rfl
  · exact (claim_C5 qTrig none none (fun _ => 0) [] "a" [] ![1, 0, 0]
      false 0 ![0, 0, 0] [c5ChildNode] (fun _ => 0) 0 1).2.2 (by decide)

/-! ## Claim C4: batch of size one agrees with the unbatched renderer -/

theorem idxRotLoopBatch_singleton [Field α] (tr : Trig α)
    (fixed : Option (List (String × α))) (nm : String) (a : ℕ → α)
    (chs : List String) (rot : Mat3 α) (i : ℕ) :
    idxRotLoopBatch tr fixed nm [a] chs [rot] i =
      ([(idxRotLoop tr fixed nm a chs rot i).1],
        (idxRotLoop tr fixed nm a chs rot i).2) := by
  induction chs generalizing rot i with
  | nil => rfl
  | cons ch chs ih =>
    simp only [idxRotLoopBatch, idxRotLoop]
    cases hrm : rotation_map tr ch with
    | none => exact ih rot i
    | some f =>
      cases fixed with
      | none => simpa using ih (rot * f (a i)) (i + 1)
      | some fa =>
        cases hlk : List.lookup (chKey nm ch) fa with
        | none =>
            simp only [hlk]
            simpa using ih (rot * f (a i)) (i + 1)
        | some v =>
            simp only [hlk]
            simpa using ih (rot * f v) i

mutual

theorem jpb_core_singleton [Field α] [DecidableEq α] (tr : Trig α)
    (fixed : Option (List (String × α))) (lv : Option (ℕ → α))
    (lengths_map : String → ℕ) (skip : List String) (n : Node α)
    (a : ℕ → α) (i : ℕ) (pt : Mat4 α) :
    joint_positions_batch_core tr fixed (lv.map (fun l => [l])) lengths_map
      skip n [a] i [pt] =
      ((joint_positions tr fixed lv lengths_map skip n a i pt).1.map
          (fun v => [v]),
        (joint_positions tr fixed lv lengths_map skip n a i pt).2) := by
  cases n with
  | mk nm chs off es len ou cs =>
    simp only [joint_positions_batch_core, joint_positions,
      List.length_cons, List.length_nil, List.replicate, idxRotLoopBatch_singleton]
    by_cases hcond : strToLower nm ∈ skip ∧ es = true
    · rw [if_pos hcond, if_pos hcond]
      simp
    · rw [if_neg hcond, if_neg hcond]
      have hoff :
          (match lv.map (fun l => [l]) with
            | none => ([off] : List (Fin 3 → α))
            | some lrows =>
                if len = 0 then [off]
                else lrows.map
                  (fun lr => fun j => ou j * lr (lengths_map (strToLower nm)))) =
          [node_offset_sel lv lengths_map nm off ou len] := by
        cases lv with
        | none => rfl
        | some lf =>
          by_cases hl : len = 0
          · simp [node_offset_sel, hl, List.replicate]
          · simp [node_offset_sel, hl, List.replicate]
      rw [hoff]
      simp only [List.zipWith]
      rw [jpb_children_singleton]
      by_cases hskip : strToLower nm ∈ skip
      · simp [hskip]
      · simp [hskip]

theorem jpb_children_singleton [Field α] [DecidableEq α] (tr : Trig α)
    (fixed : Option (List (String × α))) (lv : Option (ℕ → α))
    (lengths_map : String → ℕ) (skip : List String) (l : List (Node α))
    (a : ℕ → α) (i : ℕ) (nt : Mat4 α) :
    joint_positions_batch_children tr fixed (lv.map (fun l2 => [l2]))
      lengths_map skip l [a] i [nt] =
      ((joint_positions_children tr fixed lv lengths_map skip l a i nt).1.map
          (fun v => [v]),
        (joint_positions_children tr fixed lv lengths_map skip l a i
          nt).2) := by
  cases l with
  | nil => rfl
  | cons c cs =>
    simp only [joint_positions_batch_children, joint_positions_children]
    rw [jpb_core_singleton, jpb_children_singleton]
    simp [List.map_append]

end

/-- C4: calling the batched joint-position renderer with a rank-1
(unbatched) angle vector — normalized inside to a batch of size one, with
a rank-1 lengths vector normalized likewise — produces, for its single
batch element, exactly the joint positions and final cursor of the
unbatched single-sample renderer on the same tree, fixed-angle overrides,
lengths, lengths map and skip set. -/
theorem claim_C4 [Field α] [DecidableEq α] (tr : Trig α)
    (fixed : Option (List (String × α))) (lv : Option (ℕ → α))
    (lengths_map : String → ℕ) (skip : List String) (n : Node α)
    (a : ℕ → α) :
    joint_positions_batch tr fixed (lv.map TLengths.vec) lengths_map skip n
      (TAngles.vec a) =
      Except.ok
        ((joint_positions_top tr fixed lv lengths_map skip n a).1.map
            (fun v => [v]),
          (joint_positions_top tr fixed lv lengths_map skip n a).2) := by
  have h := jpb_core_singleton tr fixed lv lengths_map skip n a 0 1
  cases lv with
  | none => exact congrArg Except.ok h
  | some lf => exact congrArg Except.ok h

end Bvh
